import Mathlib

/-!
Verification of the agent execution runtime (Rust crate `runtime`).

Shallow embedding conventions:
* Rust `String`/`&str` text is modelled as Lean `String` where only equality
  and ordering matter, and as `List Char` where UTF-8 byte lengths matter
  (each `Char` contributes `Char.utf8Size` bytes, exactly as in Rust).
* `u32`/`usize` are modelled as `Nat`; Rust `saturating_sub` coincides with
  `Nat` subtraction.
* `serde_json::Value` is the inductive `Json` below; `serde_json::Map`
  (a BTreeMap: keys sorted, unique, insert overwrites) is modelled by
  sorted association lists built with `Json.mapInsert`.
* Hash maps whose iteration order is irrelevant to the observable result
  (the algorithms sort or aggregate them) are modelled by their aggregate
  contents.
-/

/-- Rust `str::len` of a `&str`, in bytes: sum of the UTF-8 sizes of its
characters (`memory.rs`, `token_optimizer.rs` operate on byte lengths). -/
def byteLen (s : List Char) : Nat := (s.map Char.utf8Size).sum

/-- The longest character-boundary cut of `s` whose byte length is at most
`max`: the common loop of `safe_truncate` (`memory.rs` lines 72-81) and
`safe_truncate_string` (`token_optimizer.rs` lines 135-141), which start at
byte index `max` and walk back to the previous `char` boundary. -/
def takeUtf8 : List Char → Nat → List Char
  | [], _ => []
  | c :: cs, max =>
    if c.utf8Size ≤ max then c :: takeUtf8 cs (max - c.utf8Size) else []

/-- `memory.rs` `safe_truncate`: identity when the string already fits,
otherwise the longest UTF-8-safe cut of byte length at most `max_bytes`. -/
def safe_truncate (s : List Char) (max_bytes : Nat) : List Char :=
  if byteLen s ≤ max_bytes then s else takeUtf8 s max_bytes

theorem utf8Size_pos (c : Char) : 0 < c.utf8Size := by
  have h := Char.utf8Size_pos c
  exact h

theorem byteLen_nil : byteLen [] = 0 := rfl

theorem byteLen_cons (c : Char) (s : List Char) :
    byteLen (c :: s) = c.utf8Size + byteLen s := by
  simp [byteLen]

theorem byteLen_append (s t : List Char) :
    byteLen (s ++ t) = byteLen s + byteLen t := by
  simp [byteLen]

/-- The truncation loop never exceeds its byte budget. -/
theorem byteLen_takeUtf8_le (s : List Char) (max : Nat) :
    byteLen (takeUtf8 s max) ≤ max := by
  induction s generalizing max with
  | nil => simp [takeUtf8, byteLen]
  | cons c cs ih =>
    by_cases h : c.utf8Size ≤ max
    · simp only [takeUtf8, if_pos h, byteLen_cons]
      have := ih (max - c.utf8Size)
      omega
    · simp [takeUtf8, if_neg h, byteLen]

/-- A string that already fits is returned whole by the truncation loop. -/
theorem takeUtf8_of_le (s : List Char) (max : Nat) (h : byteLen s ≤ max) :
    takeUtf8 s max = s := by
  induction s generalizing max with
  | nil => rfl
  | cons c cs ih =>
    rw [byteLen_cons] at h
    have hc : c.utf8Size ≤ max := by omega
    simp only [takeUtf8, if_pos hc]
    rw [ih (max - c.utf8Size) (by omega)]

/-- The truncation loop yields a prefix: `takeUtf8 s max ++ rest = s` for
some `rest`. -/
theorem takeUtf8_append_eq (s : List Char) (max : Nat) :
    ∃ rest, takeUtf8 s max ++ rest = s := by
  induction s generalizing max with
  | nil => exact ⟨[], rfl⟩
  | cons c cs ih =>
    by_cases h : c.utf8Size ≤ max
    · obtain ⟨rest, hrest⟩ := ih (max - c.utf8Size)
      exact ⟨rest, by simp [takeUtf8, if_pos h, hrest]⟩
    · exact ⟨c :: cs, by simp [takeUtf8, if_neg h]⟩

/-! ## Memory selector (`memory.rs`) -/

/-- `MemoryTier` (`memory.rs` lines 3-9). -/
inductive MemoryTier where
  | none
  | compressedSummary
  | delta
  | full
deriving DecidableEq, Repr

/-- A memory entry's text fields (`memory.rs` lines 17-22); the `tier`
field is not consulted by `select_and_trim` and is omitted. -/
structure MemoryEntry where
  key : List Char
  value : List Char
deriving Repr

/-- `format!("{}:{}\n", entry.key, entry.value)` (`memory.rs` line 53). -/
def MemoryEntry.segment (e : MemoryEntry) : List Char :=
  e.key ++ ':' :: e.value ++ ['\n']

/-- The entry loop of `select_and_trim` (`memory.rs` lines 52-63): append
whole segments while they fit, and at the first segment that does not fit
append its UTF-8-safe cut into the remaining room (when any) and stop. -/
def trimLoop (maxChars : Nat) (acc : List Char) : List MemoryEntry → List Char
  | [] => acc
  | e :: rest =>
    if byteLen acc + byteLen e.segment > maxChars then
      if maxChars - byteLen acc > 0 then
        acc ++ safe_truncate e.segment (maxChars - byteLen acc)
      else acc
    else trimLoop maxChars (acc ++ e.segment) rest

/-- `MemoryManager::select_and_trim` (`memory.rs` lines 37-65). -/
def select_and_trim (entries : List MemoryEntry) (tier : MemoryTier)
    (budget_tokens : Nat) : List Char :=
  if tier = MemoryTier.none ∨ budget_tokens = 0 then []
  else
    let effective_budget :=
      match tier with
      | MemoryTier.none => 0
      | MemoryTier.compressedSummary => budget_tokens / 4
      | MemoryTier.delta => budget_tokens / 2
      | MemoryTier.full => budget_tokens
    let maxChars := effective_budget * 4
    trimLoop maxChars [] entries

/-- The divisor the spec attaches to each tier (4 / 2 / 1); `none` never
reaches the budget computation. -/
def tierDivisor : MemoryTier → Nat
  | MemoryTier.none => 1
  | MemoryTier.compressedSummary => 4
  | MemoryTier.delta => 2
  | MemoryTier.full => 1

/-- Concatenation of all formatted segments in insertion order. -/
def concatSegments (entries : List MemoryEntry) : List Char :=
  (entries.map MemoryEntry.segment).flatten

theorem byteLen_safe_truncate_le (s : List Char) (max : Nat) :
    byteLen (safe_truncate s max) ≤ max := by
  unfold safe_truncate
  split
  · assumption
  · exact byteLen_takeUtf8_le _ _

theorem trimLoop_le (maxChars : Nat) (acc : List Char)
    (entries : List MemoryEntry) (h : byteLen acc ≤ maxChars) :
    byteLen (trimLoop maxChars acc entries) ≤ maxChars := by
  induction entries generalizing acc with
  | nil => simpa [trimLoop] using h
  | cons e rest ih =>
    rw [trimLoop]
    split
    · rename_i hov
      split
      · rename_i hrem
        rw [byteLen_append]
        have hseg := byteLen_safe_truncate_le e.segment (maxChars - byteLen acc)
        omega
      · exact h
    · exact ih (acc ++ e.segment) (by rw [byteLen_append]; omega)

theorem trimLoop_result_concat (maxChars : Nat) (acc : List Char)
    (entries : List MemoryEntry) :
    ∃ rest, trimLoop maxChars acc entries ++ rest =
      acc ++ concatSegments entries := by
  induction entries generalizing acc with
  | nil => exact ⟨[], by simp [trimLoop, concatSegments]⟩
  | cons e rest ih =>
    rw [trimLoop]
    split
    · split
      · have htr : ∃ t, safe_truncate e.segment (maxChars - byteLen acc) ++ t =
            e.segment := by
          unfold safe_truncate
          split
          · exact ⟨[], by simp⟩
          · exact takeUtf8_append_eq _ _
        obtain ⟨t, ht⟩ := htr
        refine ⟨t ++ (rest.map MemoryEntry.segment).flatten, ?_⟩
        simp only [concatSegments, List.map_cons, List.flatten_cons,
          List.append_assoc]
        rw [← List.append_assoc (safe_truncate e.segment (maxChars - byteLen acc))
          t, ht]
      · exact ⟨e.segment ++ (rest.map MemoryEntry.segment).flatten,
          by simp [concatSegments]⟩
    · obtain ⟨t, ht⟩ := ih (acc ++ e.segment)
      refine ⟨t, ?_⟩
      rw [ht]
      simp [concatSegments]

/-! ## JSON values (`serde_json::Value`)

`serde_json::Map` is a `BTreeMap`: iteration is in ascending key order,
keys are unique, and `insert` overwrites.  Objects built by the runtime's
own code are constructed through `mapInsert` below, which reproduces the
sorted-unique insert; object literals received from outside are arbitrary
association lists.  -/

inductive Json where
  | null
  | bool (b : Bool)
  | num (n : Int)
  | str (s : String)
  | arr (elems : List Json)
  | obj (fields : List (String × Json))

/-- `BTreeMap::get`. -/
def getField : List (String × Json) → String → Option Json
  | [], _ => none
  | (k, v) :: rest, key => if k = key then some v else getField rest key

/-- `BTreeMap::insert`: keep ascending key order, overwrite an equal key. -/
def mapInsert : List (String × Json) → String → Json → List (String × Json)
  | [], k, v => [(k, v)]
  | (k', v') :: rest, k, v =>
    if k < k' then (k, v) :: (k', v') :: rest
    else if k = k' then (k, v) :: rest
    else (k', v') :: mapInsert rest k v

/-- Building a fresh map by inserting pairs left to right (the
`for (k, v) in obj { new_obj.insert(...) }` pattern). -/
def buildMap (l : List (String × Json)) : List (String × Json) :=
  l.foldl (fun acc kv => mapInsert acc kv.1 kv.2) []

/-- Rust byte length of a `String`. -/
def byteLenS (s : String) : Nat := byteLen s.data

/-! ## SemanticCompressor (`token_optimizer.rs` lines 89-141)

The key mapping (an `AHashMap`) is modelled as the total function
`rn : String → String` sending a key to its replacement, with
`rn k = k` for keys that are not in the map (the
`.get(k).cloned().unwrap_or_else(|| k.clone())` fallback). -/

/-- `SemanticCompressor::compress`: rename object keys through `rn`,
truncate strings longer than `ml` bytes at a `char` boundary, recurse
into arrays and objects, leave other scalars unchanged. -/
def compress (ml : Nat) (rn : String → String) : Json → Json
  | .null => .null
  | .bool b => .bool b
  | .num n => .num n
  | .str s => if byteLenS s > ml then .str ⟨takeUtf8 s.data ml⟩ else .str s
  | .arr xs => .arr (xs.attach.map (fun x => compress ml rn x.1))
  | .obj fs =>
    .obj (buildMap (fs.attach.map (fun kv => (rn kv.1.1, compress ml rn kv.1.2))))
decreasing_by
  · have h1 := List.sizeOf_lt_of_mem x.2
    simp only [Json.arr.sizeOf_spec]
    omega
  · have h1 := List.sizeOf_lt_of_mem kv.2
    have h2 : sizeOf kv.1.2 < sizeOf kv.1 := by
      rcases kv.1 with ⟨a, b⟩
      simp only [Prod.mk.sizeOf_spec]
      omega
    simp only [Json.obj.sizeOf_spec]
    omega

/-- Unfolding `compress` on arrays without the termination `attach`. -/
theorem compress_arr (ml : Nat) (rn : String → String) (xs : List Json) :
    compress ml rn (.arr xs) = .arr (xs.map (fun v => compress ml rn v)) := by
  rw [compress]
  congr 1
  exact List.attach_map_val xs (fun v => compress ml rn v)

/-- Unfolding `compress` on objects without the termination `attach`. -/
theorem compress_obj (ml : Nat) (rn : String → String)
    (fs : List (String × Json)) :
    compress ml rn (.obj fs) =
      .obj (buildMap (fs.map (fun kv => (rn kv.1, compress ml rn kv.2)))) := by
  rw [compress]
  congr 2
  exact List.attach_map_val fs (fun kv => (rn kv.1, compress ml rn kv.2))

/-! ## JsonSchema (`skill.rs` lines 21-77) -/

inductive SchemaError where
  | missingField (f : String)
  | unknownField (f : String)
  | typeMismatch
deriving DecidableEq, Repr

/-- The `for req in req_arr` loop of `JsonSchema::validate` (`skill.rs`
lines 36-42): non-string entries are skipped, the first missing required
field aborts. -/
def checkRequired (valObj : List (String × Json)) :
    List Json → Except SchemaError Unit
  | [] => .ok ()
  | .str f :: rest =>
    if (getField valObj f).isSome then checkRequired valObj rest
    else .error (.missingField f)
  | _ :: rest => checkRequired valObj rest

/-- The `for key in val_obj.keys()` loop of `JsonSchema::validate`
(`skill.rs` lines 50-54). -/
def checkKeys (propsObj : List (String × Json)) :
    List (String × Json) → Except SchemaError Unit
  | [] => .ok ()
  | (k, _) :: rest =>
    if (getField propsObj k).isSome then checkKeys propsObj rest
    else .error (.unknownField k)

/-- The `required` block of `JsonSchema::validate` (`skill.rs` lines
33-47): runs only when the schema's `required` entry is an array; a
non-object value is a type mismatch there. -/
def validateStep1 (reqEntry : Option Json) (value : Json) :
    Except SchemaError Unit :=
  match reqEntry, value with
  | some (.arr reqArr), .obj valObj => checkRequired valObj reqArr
  | some (.arr _), _ => .error .typeMismatch
  | _, _ => .ok ()

/-- The `properties` block of `JsonSchema::validate` (`skill.rs` lines
48-56): runs only when both the schema's `properties` entry and the value
are objects. -/
def validateStep2 (props : Option Json) (value : Json) :
    Except SchemaError Unit :=
  match props, value with
  | some (.obj propsObj), .obj valObj => checkKeys propsObj valObj
  | _, _ => .ok ()

/-- The retain of `JsonSchema::strip_unknown_fields` (`skill.rs` lines
62-69): drops value keys absent from `properties`; a no-op unless both
`properties` and the value are objects. -/
def stripWithProps (props : Option Json) (value : Json) : Json :=
  match props, value with
  | some (.obj propsObj), .obj valObj =>
    .obj (valObj.filter (fun kv => (getField propsObj kv.1).isSome))
  | _, _ => value

namespace JsonSchema

/-- `JsonSchema::validate` (`skill.rs` lines 31-59): the required check
first (its first violation wins), then the unknown-field check. -/
def validate (schema value : Json) : Except SchemaError Unit :=
  match schema with
  | .obj so =>
    match validateStep1 (getField so "required") value with
    | .error e => .error e
    | .ok _ => validateStep2 (getField so "properties") value
  | _ => .ok ()

/-- `JsonSchema::strip_unknown_fields` (`skill.rs` lines 61-71). -/
def strip_unknown_fields (schema value : Json) : Json :=
  match schema with
  | .obj so => stripWithProps (getField so "properties") value
  | _ => value

end JsonSchema

/-- The `required` entry of a schema when it is array-valued — the only
case in which `validate` runs its required-field loop. -/
def requiredArr (schema : Json) : Option (List Json) :=
  match schema with
  | .obj so =>
    match getField so "required" with
    | some (.arr reqArr) => some reqArr
    | _ => none
  | _ => none

/-- The string entries of the schema's `required` array: the field names
`validate` actually checks. -/
def requiredStrings (schema : Json) : List String :=
  match requiredArr schema with
  | some reqArr =>
    reqArr.filterMap (fun r => match r with | .str f => some f | _ => none)
  | none => []

/-- Whether `value` is an object carrying field `f`. -/
def hasField (value : Json) (f : String) : Bool :=
  match value with
  | .obj valObj => (getField valObj f).isSome
  | _ => false

/-! ## Structural induction for `Json` -/

/-- Induction through the nested lists of `Json`. -/
def Json.inductionOn {P : Json → Prop}
    (hnull : P .null) (hbool : ∀ b, P (.bool b)) (hnum : ∀ n, P (.num n))
    (hstr : ∀ s, P (.str s))
    (harr : ∀ xs, (∀ x ∈ xs, P x) → P (.arr xs))
    (hobj : ∀ fs, (∀ kv ∈ fs, P kv.2) → P (.obj fs)) :
    ∀ v : Json, P v
  | .null => hnull
  | .bool b => hbool b
  | .num n => hnum n
  | .str s => hstr s
  | .arr xs => harr xs (fun x hx =>
      Json.inductionOn hnull hbool hnum hstr harr hobj x)
  | .obj fs => hobj fs (fun kv hkv =>
      Json.inductionOn hnull hbool hnum hstr harr hobj kv.2)
decreasing_by
  · have h1 := List.sizeOf_lt_of_mem hx
    simp only [Json.arr.sizeOf_spec]
    omega
  · have h1 := List.sizeOf_lt_of_mem hkv
    have h2 : sizeOf kv.2 < sizeOf kv := by
      rcases kv with ⟨a, b⟩
      simp only [Prod.mk.sizeOf_spec]
      omega
    simp only [Json.obj.sizeOf_spec]
    omega

/-! ## Sorted-map lemmas for `mapInsert` / `buildMap` -/

/-- The `BTreeMap` ordering invariant: keys strictly ascending. -/
def sortedKeys (l : List (String × Json)) : Prop :=
  l.Pairwise (fun a b => a.1 < b.1)

theorem sortedKeys_cons {kv : String × Json} {l : List (String × Json)} :
    sortedKeys (kv :: l) ↔ (∀ p ∈ l, kv.1 < p.1) ∧ sortedKeys l := by
  unfold sortedKeys
  exact List.pairwise_cons

theorem mem_mapInsert {p : String × Json} {l : List (String × Json)}
    {k : String} {v : Json} (h : p ∈ mapInsert l k v) :
    p = (k, v) ∨ p ∈ l := by
  induction l with
  | nil => simpa [mapInsert] using h
  | cons kv rest ih =>
    rcases kv with ⟨k', v'⟩
    rw [mapInsert] at h
    split at h
    · simp only [List.mem_cons] at h ⊢
      tauto
    · split at h
      · simp only [List.mem_cons] at h ⊢
        tauto
      · simp only [List.mem_cons] at h ⊢
        rcases h with h | h
        · tauto
        · rcases ih h with h2 | h2 <;> tauto

theorem mapInsert_sorted {l : List (String × Json)} (hs : sortedKeys l)
    (k : String) (v : Json) : sortedKeys (mapInsert l k v) := by
  induction l with
  | nil =>
    rw [mapInsert, sortedKeys_cons]
    exact ⟨by simp, List.Pairwise.nil⟩
  | cons kv rest ih =>
    rcases kv with ⟨k', v'⟩
    rw [sortedKeys_cons] at hs
    obtain ⟨hhead, htail⟩ := hs
    rw [mapInsert]
    split
    · rename_i hlt
      rw [sortedKeys_cons]
      constructor
      · intro p hp
        simp only [List.mem_cons] at hp
        rcases hp with hp | hp
        · rw [hp]; exact hlt
        · exact lt_trans hlt (hhead p hp)
      · rw [sortedKeys_cons]
        exact ⟨hhead, htail⟩
    · split
      · rename_i hne heq
        rw [sortedKeys_cons]
        subst heq
        exact ⟨hhead, htail⟩
      · rename_i hnlt hne
        have hgt : k' < k := by
          rcases lt_trichotomy k k' with h | h | h
          · exact absurd h hnlt
          · exact absurd h hne
          · exact h
        rw [sortedKeys_cons]
        constructor
        · intro p hp
          rcases mem_mapInsert hp with h2 | h2
          · rw [h2]; exact hgt
          · exact hhead p h2
        · exact ih htail

theorem foldl_mapInsert_sorted (l : List (String × Json))
    (acc : List (String × Json)) (hs : sortedKeys acc) :
    sortedKeys (l.foldl (fun acc kv => mapInsert acc kv.1 kv.2) acc) := by
  induction l generalizing acc with
  | nil => simpa [List.foldl]
  | cons kv rest ih =>
    exact ih (mapInsert acc kv.1 kv.2) (mapInsert_sorted hs kv.1 kv.2)

theorem buildMap_sorted (l : List (String × Json)) : sortedKeys (buildMap l) :=
  foldl_mapInsert_sorted l [] (by simp [sortedKeys])

theorem mem_foldl_mapInsert {p : String × Json} (l : List (String × Json))
    (acc : List (String × Json))
    (h : p ∈ l.foldl (fun acc kv => mapInsert acc kv.1 kv.2) acc) :
    p ∈ acc ∨ p ∈ l := by
  induction l generalizing acc with
  | nil => exact Or.inl h
  | cons kv rest ih =>
    rcases ih (mapInsert acc kv.1 kv.2) h with h2 | h2
    · rcases mem_mapInsert h2 with h3 | h3
      · exact Or.inr (by simp [h3])
      · exact Or.inl h3
    · exact Or.inr (List.mem_cons_of_mem _ h2)

theorem mem_buildMap {p : String × Json} {l : List (String × Json)}
    (h : p ∈ buildMap l) : p ∈ l := by
  rcases mem_foldl_mapInsert l [] h with h2 | h2
  · simp at h2
  · exact h2

theorem mapInsert_append {l : List (String × Json)} {k : String} {v : Json}
    (h : ∀ p ∈ l, p.1 < k) : mapInsert l k v = l ++ [(k, v)] := by
  induction l with
  | nil => rfl
  | cons kv rest ih =>
    rcases kv with ⟨k', v'⟩
    have hk' : k' < k := h (k', v') (by simp)
    rw [mapInsert]
    rw [if_neg (by exact fun h2 => absurd (lt_trans hk' h2) (lt_irrefl k')),
      if_neg (by rintro rfl; exact absurd hk' (lt_irrefl k))]
    rw [ih (fun p hp => h p (List.mem_cons_of_mem _ hp))]
    rfl

theorem foldl_mapInsert_sorted_id (l acc : List (String × Json))
    (hs : sortedKeys (acc ++ l)) :
    l.foldl (fun acc kv => mapInsert acc kv.1 kv.2) acc = acc ++ l := by
  induction l generalizing acc with
  | nil => simp [List.foldl]
  | cons kv rest ih =>
    have hlt : ∀ p ∈ acc, p.1 < kv.1 := by
      rw [sortedKeys, List.pairwise_append] at hs
      exact fun p hp => hs.2.2 p hp kv (by simp)
    rw [List.foldl_cons, mapInsert_append hlt]
    rw [ih (acc ++ [kv]) (by simpa using hs)]
    simp

/-- A map that already satisfies the `BTreeMap` invariant is rebuilt
verbatim by re-inserting its pairs in order. -/
theorem buildMap_sorted_id {l : List (String × Json)} (hs : sortedKeys l) :
    buildMap l = l :=
  foldl_mapInsert_sorted_id l [] (by simpa using hs)

/-! ## Idempotency of the compressor -/

theorem compress_str_fixed (ml : Nat) (rn : String → String) (s : String) :
    compress ml rn (compress ml rn (.str s)) = compress ml rn (.str s) := by
  rw [compress]
  split
  · rename_i hgt
    have hle : byteLenS ⟨takeUtf8 s.data ml⟩ ≤ ml := byteLen_takeUtf8_le s.data ml
    rw [compress, if_neg (by omega)]
  · rename_i hle
    rw [compress, if_neg hle]

/-- C5 (amended): `SemanticCompressor::compress` is idempotent whenever the
effective key-rename function is itself idempotent — in particular for every
configuration whose key map never maps a key onto another mapped key, and for
the empty key map of `SemanticCompressor::new`.  (The unamended claim, over
arbitrary key mappings, is refuted by `compress_not_idempotent_chain`.) -/
theorem compress_idem (ml : Nat) (rn : String → String)
    (hrn : ∀ k, rn (rn k) = rn k) (v : Json) :
    compress ml rn (compress ml rn v) = compress ml rn v := by
  induction v using Json.inductionOn with
  | hnull => simp [compress]
  | hbool b => simp [compress]
  | hnum n => simp [compress]
  | hstr s => exact compress_str_fixed ml rn s
  | harr xs ih =>
    rw [compress_arr, compress_arr, List.map_map]
    congr 1
    apply List.map_congr_left
    intro x hx
    exact ih x hx
  | hobj fs ih =>
    rw [compress_obj, compress_obj]
    have hfix : ∀ kv ∈ buildMap (fs.map
        (fun kv => (rn kv.1, compress ml rn kv.2))),
        (rn kv.1, compress ml rn kv.2) = kv := by
      intro kv hkv
      have hmem := mem_buildMap hkv
      rw [List.mem_map] at hmem
      obtain ⟨kv0, hkv0, heq⟩ := hmem
      rcases kv with ⟨a, b⟩
      rcases Prod.mk.injEq .. ▸ heq with ⟨ha, hb⟩
      have h1 : rn a = a := by rw [← ha, hrn]
      have h2 : compress ml rn b = b := by rw [← hb, ih kv0 hkv0]
      rw [h1, h2]
    rw [List.map_congr_left hfix]
    simp only [List.map_id']
    rw [buildMap_sorted_id (buildMap_sorted _)]

/-- The rename map `{a ↦ b, b ↦ c}` of the idempotency counterexample. -/
def rnChain : String → String :=
  fun k => if k = "a" then "b" else if k = "b" then "c" else k

/-- The rename map `{a ↦ b}` whose range is disjoint from its domain:
an idempotent configuration. -/
def rnDisjoint : String → String :=
  fun k => if k = "a" then "b" else k

/-- C5 counterexample: with the key mapping `{a ↦ b, b ↦ c}` (a legal
configuration via `add_key_mapping`) and the default `max_string_len = 200`,
compressing `{"a": null}` twice yields `{"c": null}` while compressing once
yields `{"b": null}` — `compress` is not idempotent for every configuration. -/
theorem compress_not_idempotent_chain :
    compress 200 rnChain (compress 200 rnChain (Json.obj [("a", Json.null)])) ≠
      compress 200 rnChain (Json.obj [("a", Json.null)]) := by
  have h1 : compress 200 rnChain (Json.obj [("a", Json.null)]) =
      Json.obj [("b", Json.null)] := by
    rw [compress_obj]
    simp [compress, buildMap, mapInsert, rnChain]
  have h2 : compress 200 rnChain (Json.obj [("b", Json.null)]) =
      Json.obj [("c", Json.null)] := by
    rw [compress_obj]
    simp [compress, buildMap, mapInsert, rnChain]
  rw [h1, h2]
  simp

/-- Witness for `compress_idem` at the rename map `{a ↦ b}` and the value
`{"a": "hello world"}` with `max_string_len = 5`. -/
theorem compress_idem_witness :
    compress 5 rnDisjoint
        (compress 5 rnDisjoint (Json.obj [("a", Json.str "hello world")])) =
      compress 5 rnDisjoint (Json.obj [("a", Json.str "hello world")]) :=
  compress_idem 5 rnDisjoint
    (by
      intro k
      by_cases h : k = "a" <;> simp [rnDisjoint, h])
    (Json.obj [("a", Json.str "hello world")])

/-- C6: `select_and_trim` returns the empty string when the tier is `None`
or the budget is zero; its result is always an initial run of whole
characters of the `key:value\n` concatenation of the entries in insertion
order (so truncation never splits a multi-byte code point and the result
stays valid UTF-8), and its byte length is at most
`4 * (budget_tokens / d)` with `d = 4` for CompressedSummary, `2` for
Delta and `1` for Full. -/
theorem select_and_trim_spec (entries : List MemoryEntry) (tier : MemoryTier)
    (budget_tokens : Nat) :
    ((tier = MemoryTier.none ∨ budget_tokens = 0) →
      select_and_trim entries tier budget_tokens = []) ∧
    (∃ rest, select_and_trim entries tier budget_tokens ++ rest =
      concatSegments entries) ∧
    byteLen (select_and_trim entries tier budget_tokens) ≤
      4 * (budget_tokens / tierDivisor tier) := by
  refine ⟨?_, ?_, ?_⟩
  · intro h
    rw [select_and_trim.eq_def, if_pos h]
  · rw [select_and_trim.eq_def]
    split
    · exact ⟨concatSegments entries, rfl⟩
    · simpa using trimLoop_result_concat _ [] entries
  · rw [select_and_trim.eq_def]
    split
    · simp [byteLen]
    · have hle := trimLoop_le
        ((match tier with
          | MemoryTier.none => 0
          | MemoryTier.compressedSummary => budget_tokens / 4
          | MemoryTier.delta => budget_tokens / 2
          | MemoryTier.full => budget_tokens) * 4) [] entries (by simp [byteLen])
      rcases tier with _ | _ | _ | _ <;>
        exact le_trans hle (by simp only [tierDivisor]; omega)

/-- Witness for `select_and_trim_spec`: zero budget gives the empty string,
and a Delta-tier call stays within `4 * (budget / 2)` bytes. -/
theorem select_and_trim_spec_witness :
    select_and_trim [⟨"k".data, "value".data⟩] MemoryTier.delta 0 = [] ∧
    byteLen (select_and_trim [⟨"k".data, "value".data⟩] MemoryTier.delta 6) ≤
      4 * (6 / 2) :=
  ⟨(select_and_trim_spec [⟨"k".data, "value".data⟩] MemoryTier.delta 0).1
      (Or.inr rfl),
    (select_and_trim_spec [⟨"k".data, "value".data⟩] MemoryTier.delta 6).2.2⟩

/-! ## Strip-then-validate (claim about `skill.rs`) -/

theorem checkRequired_ok_iff (valObj : List (String × Json))
    (reqArr : List Json) :
    checkRequired valObj reqArr = .ok () ↔
      ∀ f ∈ reqArr.filterMap
        (fun r => match r with | .str f => some f | _ => none),
        (getField valObj f).isSome := by
  induction reqArr with
  | nil => simp [checkRequired]
  | cons r rest ih =>
    cases r with
    | str f =>
      by_cases hf : (getField valObj f).isSome
      · simp only [checkRequired, if_pos hf, List.filterMap_cons]
        simp [hf, ih]
      · simp only [checkRequired, if_neg hf, List.filterMap_cons]
        simp [hf]
    | null => simpa [checkRequired, List.filterMap_cons] using ih
    | bool b => simpa [checkRequired, List.filterMap_cons] using ih
    | num n => simpa [checkRequired, List.filterMap_cons] using ih
    | arr xs => simpa [checkRequired, List.filterMap_cons] using ih
    | obj fs => simpa [checkRequired, List.filterMap_cons] using ih

theorem checkKeys_filter_ok (propsObj valObj : List (String × Json)) :
    checkKeys propsObj
      (valObj.filter (fun kv => (getField propsObj kv.1).isSome)) = .ok () := by
  induction valObj with
  | nil => simp [checkKeys]
  | cons kv rest ih =>
    by_cases h : (getField propsObj kv.1).isSome
    · rw [List.filter_cons_of_pos (by simpa using h)]
      rcases kv with ⟨k, v⟩
      simpa [checkKeys, h] using ih
    · rw [List.filter_cons_of_neg (by simpa using h)]
      exact ih

/-- Non-object values pass through `strip_unknown_fields` unchanged. -/
theorem strip_of_nonobj (schema value : Json) (h : ∀ vo, value ≠ .obj vo) :
    JsonSchema.strip_unknown_fields schema value = value := by
  rw [JsonSchema.strip_unknown_fields.eq_def]
  split
  · rw [stripWithProps.eq_def]
    split
    · rename_i propsObj valObj heqp
      exact absurd rfl (h valObj)
    · rfl
  · rfl

/-- Stripping keeps objects objects. -/
theorem strip_obj_exists (schema : Json) (vo : List (String × Json)) :
    ∃ vo2, JsonSchema.strip_unknown_fields schema (.obj vo) = .obj vo2 := by
  rw [JsonSchema.strip_unknown_fields.eq_def]
  split
  · rw [stripWithProps.eq_def]
    split
    · rename_i propsObj valObj heqp
      exact ⟨_, rfl⟩
    · exact ⟨vo, rfl⟩
  · exact ⟨vo, rfl⟩

/-- The unknown-field check always accepts a value just stripped against
the same schema. -/
theorem validateStep2_strip_ok (props : Option Json) (value : Json) :
    validateStep2 props (stripWithProps props value) = .ok () := by
  rw [stripWithProps.eq_def]
  split
  · rename_i propsObj valObj
    rw [validateStep2]
    exact checkKeys_filter_ok propsObj valObj
  · rename_i hno
    rw [validateStep2.eq_def]
    split
    · rename_i propsObj valObj
      exact (hno propsObj valObj rfl rfl).elim
    · rfl

/-- Validation of a stripped value reduces to its required-field step: the
unknown-field step can no longer fail. -/
theorem validate_strip_ok_iff_step1 (so : List (String × Json)) (value : Json) :
    JsonSchema.validate (.obj so)
        (JsonSchema.strip_unknown_fields (.obj so) value) = .ok () ↔
      validateStep1 (getField so "required")
        (JsonSchema.strip_unknown_fields (.obj so) value) = .ok () := by
  rw [JsonSchema.validate]
  cases h : validateStep1 (getField so "required")
      (JsonSchema.strip_unknown_fields (.obj so) value) with
  | error e => simp
  | ok u =>
    cases u
    have h2 : JsonSchema.strip_unknown_fields (.obj so) value =
        stripWithProps (getField so "properties") value := by
      rw [JsonSchema.strip_unknown_fields]
    simp only []
    rw [h2, validateStep2_strip_ok]
    simp [h]

/-- C4 (amended): stripping unknown fields and then validating accepts iff
either the schema carries no array-valued `required` entry, or the value is
a JSON object that still contains every required string field after the
strip.  (The claim as frozen — acceptance iff all required fields are
present in the output value — fails when `required` is an empty array and
the value is not an object: every required field is then vacuously present,
yet `validate` reports a type mismatch; see
`strip_then_validate_rejects_nonobject`.  It also fails for required fields
that are absent from `properties`: the strip removes them before the
check.) -/
theorem strip_then_validate_iff (schema value : Json) :
    JsonSchema.validate schema
        (JsonSchema.strip_unknown_fields schema value) = .ok () ↔
      (requiredArr schema = none ∨
        ((∃ vo, value = .obj vo) ∧
          ∀ f ∈ requiredStrings schema,
            hasField (JsonSchema.strip_unknown_fields schema value) f)) := by
  cases schema with
  | null => simp [JsonSchema.validate, requiredArr]
  | bool b => simp [JsonSchema.validate, requiredArr]
  | num n => simp [JsonSchema.validate, requiredArr]
  | str s => simp [JsonSchema.validate, requiredArr]
  | arr xs => simp [JsonSchema.validate, requiredArr]
  | obj so =>
    rw [validate_strip_ok_iff_step1]
    cases hreq : getField so "required" with
    | none =>
      rw [validateStep1.eq_def]
      simp [requiredArr, hreq]
    | some req =>
      cases req with
      | arr reqArr =>
        simp only [requiredArr, requiredStrings, hreq]
        cases value with
        | obj vo =>
          obtain ⟨vo2, hvo2⟩ := strip_obj_exists (.obj so) vo
          rw [hvo2, validateStep1]
          rw [checkRequired_ok_iff]
          constructor
          · intro hok
            exact Or.inr ⟨⟨vo, rfl⟩, fun f hf => by
              simpa [hasField] using hok f hf⟩
          · rintro (hfalse | ⟨hex, hall⟩)
            · exact absurd hfalse (by simp)
            · intro f hf
              simpa [hasField] using hall f hf
        | null =>
          rw [strip_of_nonobj _ _ (by intro vo h; cases h)]
          rw [validateStep1.eq_def]
          simp
        | bool b =>
          rw [strip_of_nonobj _ _ (by intro vo h; cases h)]
          rw [validateStep1.eq_def]
          simp
        | num n =>
          rw [strip_of_nonobj _ _ (by intro vo h; cases h)]
          rw [validateStep1.eq_def]
          simp
        | str s =>
          rw [strip_of_nonobj _ _ (by intro vo h; cases h)]
          rw [validateStep1.eq_def]
          simp
        | arr ys =>
          rw [strip_of_nonobj _ _ (by intro vo h; cases h)]
          rw [validateStep1.eq_def]
          simp
      | null =>
        rw [validateStep1.eq_def]
        simp [requiredArr, hreq]
      | bool b =>
        rw [validateStep1.eq_def]
        simp [requiredArr, hreq]
      | num n =>
        rw [validateStep1.eq_def]
        simp [requiredArr, hreq]
      | str s =>
        rw [validateStep1.eq_def]
        simp [requiredArr, hreq]
      | obj oo =>
        rw [validateStep1.eq_def]
        simp [requiredArr, hreq]

/-- C4 counterexample: for the schema `{"required": []}` and the non-object
output value `42`, every required field (there are none) is present in the
output value, yet strip-then-validate rejects with a type mismatch — the
"accepts iff all required fields are present" equivalence fails. -/
theorem strip_then_validate_rejects_nonobject :
    (∀ f ∈ requiredStrings (Json.obj [("required", Json.arr [])]),
      hasField (Json.num 42) f) ∧
    JsonSchema.validate (Json.obj [("required", Json.arr [])])
      (JsonSchema.strip_unknown_fields
        (Json.obj [("required", Json.arr [])]) (Json.num 42)) ≠ .ok () := by
  constructor
  · intro f hf
    have h : requiredStrings (Json.obj [("required", Json.arr [])]) = [] := rfl
    rw [h] at hf
    cases hf
  · intro h
    have h2 : JsonSchema.validate (Json.obj [("required", Json.arr [])])
        (JsonSchema.strip_unknown_fields
          (Json.obj [("required", Json.arr [])]) (Json.num 42)) =
        .error .typeMismatch := rfl
    rw [h2] at h
    cases h

/-! ## JSON serialization (`serde_json::to_string`)

Compact serialization: object fields in map order, strings escaped as
serde_json escapes them (quote, backslash, and control characters; other
characters are emitted as raw UTF-8).  Only used where the Rust code
serializes values: the input-cache key and the output size check. -/

/-- One of the sixteen lowercase hex digits. -/
def hexDigit (n : Nat) : Char :=
  if n < 10 then Char.ofNat (48 + n) else Char.ofNat (87 + n)

/-- serde_json's escape of a single character inside a string literal. -/
def escapeChar (c : Char) : List Char :=
  if c = '"' then ['\\', '"']
  else if c = '\\' then ['\\', '\\']
  else if c = Char.ofNat 8 then ['\\', 'b']
  else if c = Char.ofNat 12 then ['\\', 'f']
  else if c = '\n' then ['\\', 'n']
  else if c = '\r' then ['\\', 'r']
  else if c = '\t' then ['\\', 't']
  else if c.toNat < 32 then
    ['\\', 'u', '0', '0', hexDigit (c.toNat / 16), hexDigit (c.toNat % 16)]
  else [c]

/-- A JSON string literal: quote, escaped characters, quote. -/
def serializeStr (s : String) : List Char :=
  '"' :: (s.data.map escapeChar).flatten ++ ['"']

/-- Comma-separated concatenation. -/
def commaJoin : List (List Char) → List Char
  | [] => []
  | [x] => x
  | x :: y :: rest => x ++ ',' :: commaJoin (y :: rest)

/-- `serde_json::to_string` on a `Value` (compact form). -/
def toJsonString : Json → List Char
  | .null => "null".data
  | .bool true => "true".data
  | .bool false => "false".data
  | .num n =>
    if n < 0 then '-' :: Nat.toDigits 10 n.natAbs else Nat.toDigits 10 n.natAbs
  | .str s => serializeStr s
  | .arr xs =>
    Char.ofNat 91 :: commaJoin (xs.attach.map (fun x => toJsonString x.1)) ++
      [Char.ofNat 93]
  | .obj fs =>
    Char.ofNat 123 :: commaJoin (fs.attach.map (fun kv =>
      serializeStr kv.1.1 ++ ':' :: toJsonString kv.1.2)) ++ [Char.ofNat 125]
decreasing_by
  · have h1 := List.sizeOf_lt_of_mem x.2
    simp only [Json.arr.sizeOf_spec]
    omega
  · have h1 := List.sizeOf_lt_of_mem kv.2
    have h2 : sizeOf kv.1.2 < sizeOf kv.1 := by
      rcases kv.1 with ⟨a, b⟩
      simp only [Prod.mk.sizeOf_spec]
      omega
    simp only [Json.obj.sizeOf_spec]
    omega

/-! ## Skill executor (`skill_executor.rs`, `skill.rs`) -/

/-- `SkillExecutionMode` (`skill.rs` lines 3-7). -/
inductive SkillExecutionMode where
  | deterministic
  | llm
deriving DecidableEq, Repr

/-- `ResponseMode` (`skill.rs` lines 9-13). -/
inductive ResponseMode where
  | strictJson
  | compactJson
deriving DecidableEq, Repr

/-- `SkillDefinition` (`skill.rs` lines 89-98); schemas are their
underlying JSON descriptors. -/
structure SkillDefinition where
  id : String
  input_schema : Json
  output_schema : Json
  execution_mode : SkillExecutionMode
  max_output_tokens : Nat
  compact_keys : Option Json

/-- `TokenUsage` (`provider.rs`); `Default` is all zeroes. -/
structure TokenUsage where
  prompt_tokens : Nat
  completion_tokens : Nat
  total_tokens : Nat
deriving DecidableEq, Repr

/-- `ModelResponse`, with `content` abstracted to its parse result: the
provider returns a text body; `serde_json::from_str` either yields a value
(`some`) or fails (`none`). -/
structure ModelResponse where
  content : Option Json
  usage : TokenUsage

/-- `SkillExecError` (`skill_executor.rs` lines 7-21); message strings are
dropped, the schema error kind is kept. -/
inductive SkillExecError where
  | provider
  | schemaViolation (e : SchemaError)
  | outputTooLarge (actual max : Nat)
  | deterministicError
  | jsonParse
  | freeTextRejected
deriving DecidableEq, Repr

/-- `SkillExecResult` (`skill_executor.rs` lines 162-167). -/
structure SkillExecResult where
  output : Json
  usage : TokenUsage
  cached : Bool

/-- The input cache.  `SkillInputCache::input_hash` hashes the pair
(skill id, serialized input) to a `u64`; the model keys the cache by that
pair itself, i.e. treats the hash as collision-free, which is also how the
claims about the cache read it. -/
def lookupCache : List ((String × List Char) × Json) → String × List Char →
    Option Json
  | [], _ => none
  | (k, v) :: rest, key => if k = key then some v else lookupCache rest key

/-- `reject_free_text` (`skill_executor.rs` lines 169-174). -/
def reject_free_text (value : Json) : Except SkillExecError Unit :=
  match value with
  | .str _ => .error .freeTextRejected
  | _ => .ok ()

/-- `apply_compact_keys` (`skill_executor.rs` lines 176-192): rename
top-level object keys through the mapping's string entries, rebuilding the
object map. -/
def apply_compact_keys (value : Json) (mapping : Option Json) : Json :=
  match mapping with
  | none => value
  | some m =>
    match m, value with
    | .obj mapObj, .obj valObj =>
      .obj (buildMap (valObj.map (fun kv =>
        (match getField mapObj kv.1 with
          | some (.str short) => short
          | _ => kv.1, kv.2))))
    | _, _ => value

/-- `SkillExecutor::execute` (`skill_executor.rs` lines 72-159).  The
executor's mutable state (input cache, deterministic handler registry) is
passed explicitly; the provider call made for this request is the
`providerResp` parameter (`Except Unit` abstracts `ProviderError`).
Returns the result together with the cache after the call. -/
def SkillExecutor.execute
    (cache : List ((String × List Char) × Json))
    (detHandlers : String → Option (Json → Except SkillExecError Json))
    (skill : SkillDefinition) (input : Json) (response_mode : ResponseMode)
    (providerResp : Except Unit ModelResponse) :
    Except SkillExecError (SkillExecResult × List ((String × List Char) × Json)) :=
  let input_str := toJsonString input
  let key := (skill.id, input_str)
  match lookupCache cache key with
  | some cached => .ok (⟨cached, ⟨0, 0, 0⟩, true⟩, cache)
  | none =>
    match JsonSchema.validate skill.input_schema input with
    | .error e => .error (.schemaViolation e)
    | .ok _ =>
      let step : Except SkillExecError (Json × TokenUsage) :=
        match skill.execution_mode with
        | .deterministic =>
          match detHandlers skill.id with
          | none => .error .deterministicError
          | some handler =>
            match handler input with
            | .error e => .error e
            | .ok result => .ok (result, ⟨0, 0, 0⟩)
        | .llm =>
          match providerResp with
          | .error _ => .error .provider
          | .ok resp =>
            match resp.content with
            | none => .error .jsonParse
            | some parsed =>
              match reject_free_text parsed with
              | .error e => .error e
              | .ok _ => .ok (parsed, resp.usage)
      match step with
      | .error e => .error e
      | .ok (rawOutput, usage) =>
        let output := JsonSchema.strip_unknown_fields skill.output_schema
          rawOutput
        match JsonSchema.validate skill.output_schema output with
        | .error e => .error (.schemaViolation e)
        | .ok _ =>
          let output_str :=
            match response_mode with
            | .strictJson => toJsonString output
            | .compactJson =>
              toJsonString (apply_compact_keys output skill.compact_keys)
          if skill.max_output_tokens > 0 ∧
              byteLen output_str / 4 > skill.max_output_tokens then
            .error (.outputTooLarge (byteLen output_str / 4)
              skill.max_output_tokens)
          else
            .ok (⟨output, usage, false⟩, (key, output) :: cache)

/-- C7: for an LLM-mode skill invocation that misses the input cache and
whose input passes the input schema, when the provider succeeds and its
content parses as a bare JSON string, `execute` returns FreeTextRejected. -/
theorem llm_bare_string_rejected
    (cache : List ((String × List Char) × Json))
    (detHandlers : String → Option (Json → Except SkillExecError Json))
    (skill : SkillDefinition) (input : Json) (response_mode : ResponseMode)
    (resp : ModelResponse) (s : String)
    (hmode : skill.execution_mode = .llm)
    (hmiss : lookupCache cache (skill.id, toJsonString input) = none)
    (hvalid : JsonSchema.validate skill.input_schema input = .ok ())
    (hcontent : resp.content = some (Json.str s)) :
    SkillExecutor.execute cache detHandlers skill input response_mode
      (.ok resp) = .error .freeTextRejected := by
  rw [SkillExecutor.execute.eq_def]
  simp only [hmiss, hvalid, hmode, hcontent, reject_free_text]

/-- Witness for `llm_bare_string_rejected`: the S6 scenario — the provider
returns the literal JSON string `"just a string"`. -/
theorem llm_bare_string_rejected_witness :
    SkillExecutor.execute [] (fun _ => none)
      ⟨"summarize", Json.obj [], Json.obj [], .llm, 500, none⟩
      (Json.obj []) .strictJson
      (.ok ⟨some (Json.str "just a string"), ⟨10, 20, 30⟩⟩) =
      .error .freeTextRejected :=
  llm_bare_string_rejected [] (fun _ => none)
    ⟨"summarize", Json.obj [], Json.obj [], .llm, 500, none⟩
    (Json.obj []) .strictJson
    ⟨some (Json.str "just a string"), ⟨10, 20, 30⟩⟩ "just a string"
    rfl rfl rfl rfl

/-- C10: the result cache is keyed solely by (skill id, serialized input):
on a hit, `execute` returns the stored output with zero usage and
`cached = true`, leaves the cache unchanged, and consults nothing else —
the statement quantifies over arbitrary handlers, schemas, execution mode,
output limits, response mode and provider outcome, so a `SkillDefinition`
that merely shares the `id` (or a different response mode) is served the
same cached result with no validation, provider call, or size check. -/
theorem cache_hit_short_circuits
    (cache : List ((String × List Char) × Json))
    (detHandlers : String → Option (Json → Except SkillExecError Json))
    (skill : SkillDefinition) (input : Json) (response_mode : ResponseMode)
    (providerResp : Except Unit ModelResponse) (v : Json)
    (hhit : lookupCache cache (skill.id, toJsonString input) = some v) :
    SkillExecutor.execute cache detHandlers skill input response_mode
      providerResp = .ok (⟨v, ⟨0, 0, 0⟩, true⟩, cache) := by
  rw [SkillExecutor.execute.eq_def]
  simp only [hhit]

/-- Witness for `cache_hit_short_circuits`: a cache entry for skill id "s"
is served to a deterministic-mode definition with unregistered handlers, a
failing provider, and an input schema the input violates. -/
theorem cache_hit_short_circuits_witness :
    SkillExecutor.execute
      [(("s", toJsonString (Json.obj [])), Json.bool true)] (fun _ => none)
      ⟨"s", Json.obj [("required", Json.arr [Json.str "x"])], Json.obj [],
        .deterministic, 1, none⟩
      (Json.obj []) .compactJson (.error ()) =
      .ok (⟨Json.bool true, ⟨0, 0, 0⟩, true⟩,
        [(("s", toJsonString (Json.obj [])), Json.bool true)]) :=
  cache_hit_short_circuits
    [(("s", toJsonString (Json.obj [])), Json.bool true)] (fun _ => none)
    ⟨"s", Json.obj [("required", Json.arr [Json.str "x"])], Json.obj [],
      .deterministic, 1, none⟩
    (Json.obj []) .compactJson (.error ()) (Json.bool true)
    (by simp [lookupCache])

/-! ## Execution engine budget loop (`execution_engine.rs` lines 54-159)

The per-skill body assembles delta/memory/schema/prompt context, asks the
estimator for `est.total`, checks the budget, runs the skill through the
executor and finally decrements `budget_remaining` by the reported
`usage.total_tokens` (a `u32` `saturating_sub`).  Everything the budget
logic consumes from that body is a function of the current
`budget_remaining` (the memory text is selected under `budget_remaining/4`,
caches and delta state differ per iteration), so one loop iteration is
abstracted as either `skip` — the `None => continue` arm when no
`SkillDefinition` matches the graph node — or `run est usage fails`, where
`est br` is the predicted `est.total`, `usage br` the executed skill's
`usage.total_tokens`, and `fails br` whether `execute_skill` returns an
error, each given the entry value `br` of `budget_remaining`. -/
inductive StepSpec where
  | skip
  | run (est : Nat → Nat) (usage : Nat → Nat) (fails : Nat → Bool)

/-- Outcome of the loop, instrumented with the (ghost) trace of
`budget_remaining` values observed after each executed skill. -/
inductive EngineResult where
  | ok (trace : List Nat)
  | budgetExhausted (used limit : Nat) (trace : List Nat)
  | skillError (trace : List Nat)

/-- The trace carried by any outcome. -/
def EngineResult.trace : EngineResult → List Nat
  | .ok tr => tr
  | .budgetExhausted _ _ tr => tr
  | .skillError tr => tr

/-- The `for skill_id in &order` loop of `ExecutionEngine::execute`:
`limit` is `agent.budget`, `br` the running `budget_remaining`.  The budget
gate reproduces the nested `if est.total > budget_remaining { ... if’
est.total > budget_remaining + budget_remaining / 4 { return Err } }` of
lines 103-113 (the `suggest_downgrades` call in between has no effect). -/
def engineLoop (limit : Nat) : List StepSpec → Nat → List Nat → EngineResult
  | [], _, tr => .ok tr
  | .skip :: rest, br, tr => engineLoop limit rest br tr
  | .run est usage fails :: rest, br, tr =>
    if est br > br ∧ est br > br + br / 4 then
      .budgetExhausted (limit - br) limit tr
    else if fails br then .skillError tr
    else engineLoop limit rest (br - usage br) (tr ++ [br - usage br])

/-- C3: at each executed skill the engine returns
`BudgetExhausted{used = limit − br, limit}` exactly when
`est.total > br + br/4`; when `est.total ≤ br + br/4` the skill still
executes — also when `est.total` exceeds `br` itself, since the outer
`est.total > budget_remaining` test alone never aborts. -/
theorem budget_gate_iff (limit br : Nat) (est usage : Nat → Nat)
    (fails : Nat → Bool) (rest : List StepSpec) (tr : List Nat) :
    (est br > br + br / 4 →
      engineLoop limit (.run est usage fails :: rest) br tr =
        .budgetExhausted (limit - br) limit tr) ∧
    (est br ≤ br + br / 4 →
      engineLoop limit (.run est usage fails :: rest) br tr =
        (if fails br then .skillError tr
          else engineLoop limit rest (br - usage br) (tr ++ [br - usage br]))) := by
  constructor
  · intro h
    rw [engineLoop, if_pos ⟨by omega, h⟩]
  · intro h
    rw [engineLoop, if_neg (by omega)]

/-- Witness for `budget_gate_iff` with `limit = br = 10`: an estimate of 13
(`> 12 = 10 + 10/4`) aborts with `BudgetExhausted{used = 0, limit = 10}`,
while an estimate of 12 — although above the remaining budget of 10 —
still executes the skill and completes. -/
theorem budget_gate_iff_witness :
    engineLoop 10 [.run (fun _ => 13) (fun _ => 80) (fun _ => false)] 10 [] =
      .budgetExhausted (10 - 10) 10 [] ∧
    engineLoop 10 [.run (fun _ => 12) (fun _ => 80) (fun _ => false)] 10 [] =
      .ok [10 - 80] :=
  ⟨(budget_gate_iff 10 10 (fun _ => 13) (fun _ => 80) (fun _ => false)
      [] []).1 (by norm_num),
    ((budget_gate_iff 10 10 (fun _ => 12) (fun _ => 80) (fun _ => false)
      [] []).2 (by norm_num)).trans (by rw [if_neg (by simp), engineLoop]; rfl)⟩

theorem engineLoop_trace_sorted (limit : Nat) (steps : List StepSpec)
    (br : Nat) (tr : List Nat) (h : (tr ++ [br]).Pairwise (· ≥ ·)) :
    ((engineLoop limit steps br tr).trace).Pairwise (· ≥ ·) ∧
    ∀ x ∈ (engineLoop limit steps br tr).trace, x ∈ tr ∨ x ≤ br := by
  induction steps generalizing br tr with
  | nil =>
    rw [engineLoop]
    refine ⟨?_, fun x hx => Or.inl hx⟩
    rw [List.pairwise_append] at h
    exact h.1
  | cons step rest ih =>
    cases step with
    | skip => exact ih br tr h
    | run est usage fails =>
      rw [engineLoop]
      split
      · refine ⟨?_, fun x hx => Or.inl hx⟩
        rw [List.pairwise_append] at h
        exact h.1
      · split
        · refine ⟨?_, fun x hx => Or.inl hx⟩
          rw [List.pairwise_append] at h
          exact h.1
        · have hle : br - usage br ≤ br := Nat.sub_le br (usage br)
          have h2 : ((tr ++ [br - usage br]) ++ [br - usage br]).Pairwise
              (· ≥ ·) := by
            rw [List.append_assoc]
            rw [List.pairwise_append] at h ⊢
            refine ⟨h.1, ?_, ?_⟩
            · simp
            · intro a ha b hb
              have hb2 : b = br - usage br := by simpa using hb
              subst hb2
              exact le_trans hle (h.2.2 a ha br (by simp))
          obtain ⟨hp, hm⟩ := ih (br - usage br) (tr ++ [br - usage br]) h2
          refine ⟨hp, ?_⟩
          intro x hx
          rcases hm x hx with hx2 | hx2
          · rw [List.mem_append, List.mem_singleton] at hx2
            rcases hx2 with hx2 | hx2
            · exact Or.inl hx2
            · exact Or.inr (hx2 ▸ hle)
          · exact Or.inr (le_trans hx2 hle)

/-- C8: within one run, `budget_remaining` is non-increasing: it starts at
`agent.budget` and after every executed skill equals the saturating
subtraction of that skill's `usage.total_tokens` (the loop's trace records
exactly those values), so the sequence `budget :: trace` is sorted
non-increasing and `used = budget − budget_remaining` never exceeds the
budget. -/
theorem budget_monotone (limit : Nat) (steps : List StepSpec) :
    (limit :: (engineLoop limit steps limit []).trace).Pairwise (· ≥ ·) ∧
    ∀ br ∈ (engineLoop limit steps limit []).trace, limit - br ≤ limit := by
  have h := engineLoop_trace_sorted limit steps limit [] (by simp)
  constructor
  · rw [List.pairwise_cons]
    refine ⟨?_, h.1⟩
    intro a ha
    rcases h.2 a ha with h2 | h2
    · cases h2
    · exact h2
  · intro br _
    exact Nat.sub_le limit br

/-! ## Skill graph (`skill_graph.rs`)

`topological_order` builds two `AHashMap`s by iterating the node list:
`in_degree` maps each node's `skill_id` to the number of `(node, dep)`
pairs targeting it, and `adj` maps a dependency's `source_skill` to the
dependent `skill_id`s in iteration order.  The maps are modelled by their
aggregate contents over the edge list (hash iteration order is only
observed through the key set, which is sorted before use). -/

/-- `DependencySpec` (`skill_graph.rs` lines 9-13). -/
structure DependencySpec where
  source_skill : String
  fields : List String
deriving DecidableEq, Repr

/-- `SkillNode` (`skill_graph.rs` lines 3-7). -/
structure SkillNode where
  skill_id : String
  dependencies : List DependencySpec
deriving DecidableEq, Repr

/-- `GraphError` (`skill_graph.rs` lines 20-26). -/
inductive GraphError where
  | cycleDetected
  | missingDependency (skill missing : String)
deriving DecidableEq, Repr

/-- Every `(node, dep)` pair as the edge `(dep.source_skill,
node.skill_id)` — the loop of lines 59-66, in iteration order. -/
def allEdges (nodes : List SkillNode) : List (String × String) :=
  nodes.flatMap (fun n =>
    n.dependencies.map (fun d => (d.source_skill, n.skill_id)))

/-- The `adj` entry of a key: dependent ids of edges leaving `u`,
in construction order. -/
def adjOfE (edges : List (String × String)) (u : String) : List String :=
  (edges.filter (fun e => decide (e.1 = u))).map Prod.snd

/-- The `in_degree` entry of a key after the build loops. -/
def indeg0 (edges : List (String × String)) (v : String) : Nat :=
  edges.countP (fun e => decide (e.2 = v))

/-- Edges into `v` whose source has not been emitted yet: the value of the
mutable `in_degree` entry of `v` once every member of `popped` has had its
neighbors processed. -/
def edgesInto (edges : List (String × String)) (v : String)
    (popped : List String) : Nat :=
  edges.countP (fun e => decide (e.2 = v) && decide (e.1 ∉ popped))

/-- Lexicographic comparison of character lists by code point.  Rust
compares `&str` by UTF-8 bytes; byte-wise order of UTF-8 coincides with
code-point order, so this is the order `Vec::<&str>::sort` uses. -/
def charsLe : List Char → List Char → Bool
  | [], _ => true
  | _ :: _, [] => false
  | c :: cs, d :: ds =>
    if c.toNat < d.toNat then true
    else if d.toNat < c.toNat then false
    else charsLe cs ds

/-- `&str` ordering. -/
def strLe (a b : String) : Bool := charsLe a.data b.data

/-- Stable insertion into an ascending list: the building block of the
model of `Vec::sort` on `&str` keys. -/
def insertSorted (x : String) : List String → List String
  | [] => [x]
  | y :: ys => if strLe x y then x :: y :: ys else y :: insertSorted x ys

/-- `Vec::sort` (ascending, and canonical on `String` since equal keys are
identical). -/
def sortAsc (l : List String) : List String := l.foldr insertSorted []

/-- The `for &neighbor in neighbors` loop of lines 80-88: decrement each
neighbor's `in_degree` entry in turn and collect, in iteration order, the
neighbors whose entry just hit zero (`next_ready`).  Neighbors are always
present in `in_degree` (they are node ids, inserted at line 55). -/
def processNeighbors : List String → (String → Nat) →
    (String → Nat) × List String
  | [], indeg => (indeg, [])
  | nb :: rest, indeg =>
    let d := indeg nb - 1
    let out := processNeighbors rest (fun v => if v = nb then d else indeg v)
    (out.1, if d = 0 then nb :: out.2 else out.2)

/-- The `while let Some(current) = queue.pop()` loop of lines 77-94.  The
Rust `Vec` queue pops from the back; the model's stack keeps the top at the
head, so `queue.sort(); queue.pop()` pops the lexicographically largest
first, and `next_ready.sort()` followed by pushes in reverse places
`next_ready` on top in ascending order — `sortAsc next_ready ++ stack`.
`fuel` bounds the iteration count; every reachable state keeps
`order ++ stack` duplicate-free among node ids (`TopoInv` below), so the
`nodes.length + 1` supplied by `topological_order` is never exhausted. -/
def topoLoop (adj : String → List String) :
    Nat → List String → (String → Nat) → List String → List String
  | 0, _, _, order => order
  | _ + 1, [], _, order => order
  | fuel + 1, current :: stack, indeg, order =>
    let out := processNeighbors (adj current) indeg
    topoLoop adj fuel (sortAsc out.2 ++ stack) out.1 (order ++ [current])

namespace SkillGraph

/-- `SkillGraph::topological_order` (`skill_graph.rs` lines 48-101):
Kahn's algorithm over the stack described at `topoLoop`, starting from the
sorted zero-in-degree key set; emits `CycleDetected` unless all
`nodes.len()` entries were emitted. -/
def topological_order (nodes : List SkillNode) :
    Except GraphError (List String) :=
  let edges := allEdges nodes
  let ids := (nodes.map SkillNode.skill_id).dedup
  let stack0 := (sortAsc (ids.filter (fun v => decide (indeg0 edges v = 0)))).reverse
  let order := topoLoop (adjOfE edges) (nodes.length + 1) stack0
    (indeg0 edges) []
  if order.length = nodes.length then .ok order else .error .cycleDetected

/-- The dependency loop of `SkillGraph::validate` (lines 35-44) for one
node: the first dependency whose source is not among the ids aborts. -/
def checkDeps (allIds : List String) (skill : String) :
    List DependencySpec → Except GraphError Unit
  | [] => .ok ()
  | d :: rest =>
    if d.source_skill ∈ allIds then checkDeps allIds skill rest
    else .error (.missingDependency skill d.source_skill)

/-- The node loop of `SkillGraph::validate` (lines 35-44). -/
def checkMissing (allIds : List String) :
    List SkillNode → Except GraphError Unit
  | [] => .ok ()
  | n :: rest =>
    match checkDeps allIds n.skill_id n.dependencies with
    | .error e => .error e
    | .ok _ => checkMissing allIds rest

/-- `SkillGraph::validate` (`skill_graph.rs` lines 33-46). -/
def validate (nodes : List SkillNode) : Except GraphError Unit :=
  match checkMissing (nodes.map SkillNode.skill_id) nodes with
  | .error e => .error e
  | .ok _ =>
    match topological_order nodes with
    | .ok _ => .ok ()
    | .error e => .error e

end SkillGraph

/-! ## Loop invariants for Kahn's algorithm -/

/-- Occurrences of `v` in a list of ids. -/
def cnt (v : String) : List String → Nat
  | [] => 0
  | x :: xs => (if x = v then 1 else 0) + cnt v xs

theorem cnt_cons (v x : String) (xs : List String) :
    cnt v (x :: xs) = (if x = v then 1 else 0) + cnt v xs := rfl

theorem cnt_pos_of_mem {v : String} {l : List String} (h : v ∈ l) :
    0 < cnt v l := by
  induction l with
  | nil => cases h
  | cons x xs ih =>
    rw [cnt_cons]
    rcases List.mem_cons.mp h with h2 | h2
    · rw [if_pos h2.symm]
      omega
    · have := ih h2
      omega

theorem count_update_le (nb : String) (rest : List String)
    (indeg : String → Nat) (H : ∀ v, cnt v (nb :: rest) ≤ indeg v) :
    ∀ w, cnt w rest ≤ if w = nb then indeg nb - 1 else indeg w := by
  intro w
  have h2 := H w
  rw [cnt_cons] at h2
  by_cases hw : w = nb
  · rw [if_pos hw]
    rw [if_pos hw.symm] at h2
    rw [hw] at h2 ⊢
    omega
  · rw [if_neg hw]
    rw [if_neg (show ¬ nb = w from fun h3 => hw h3.symm)] at h2
    omega

theorem pn_indeg (ns : List String) (indeg : String → Nat) (v : String) :
    (processNeighbors ns indeg).1 v = indeg v - cnt v ns := by
  induction ns generalizing indeg with
  | nil => simp [processNeighbors, cnt]
  | cons nb rest ih =>
    rw [processNeighbors]
    simp only []
    rw [ih, cnt_cons]
    by_cases h : v = nb
    · rw [if_pos h, if_pos h.symm, h]
      omega
    · rw [if_neg h, if_neg (show ¬ nb = v from fun h3 => h h3.symm)]
      omega

theorem pn_ready_mem (ns : List String) (indeg : String → Nat)
    (H : ∀ v, cnt v ns ≤ indeg v) (v : String) :
    v ∈ (processNeighbors ns indeg).2 ↔
      (cnt v ns = indeg v ∧ indeg v ≠ 0) := by
  induction ns generalizing indeg with
  | nil =>
    simp only [processNeighbors, List.not_mem_nil, false_iff, cnt]
    omega
  | cons nb rest ih =>
    have Hrest : ∀ w, cnt w rest ≤
        (fun v' => if v' = nb then indeg nb - 1 else indeg v') w :=
      count_update_le nb rest indeg H
    have hge : 1 ≤ indeg nb := by
      have h2 := H nb
      rw [cnt_cons, if_pos rfl] at h2
      omega
    have hcnt_rest : cnt nb rest ≤ indeg nb - 1 := by
      have h2 := H nb
      rw [cnt_cons, if_pos rfl] at h2
      omega
    rw [processNeighbors]
    simp only []
    rw [cnt_cons]
    by_cases hd : indeg nb - 1 = 0
    · rw [if_pos hd, List.mem_cons, ih _ Hrest]
      by_cases h : v = nb
      · rw [if_pos (show nb = v from h.symm), h]
        constructor
        · intro _
          omega
        · intro _
          exact Or.inl rfl
      · rw [if_neg (show ¬ nb = v from fun h3 => h h3.symm), if_neg h]
        constructor
        · rintro (h2 | h2)
          · exact absurd h2 h
          · omega
        · intro h2
          exact Or.inr (by omega)
    · rw [if_neg hd, ih _ Hrest]
      by_cases h : v = nb
      · rw [if_pos (show nb = v from h.symm), if_pos h, h]
        omega
      · rw [if_neg (show ¬ nb = v from fun h3 => h h3.symm), if_neg h]
        omega

theorem pn_ready_nodup (ns : List String) (indeg : String → Nat)
    (H : ∀ v, cnt v ns ≤ indeg v) :
    (processNeighbors ns indeg).2.Nodup := by
  induction ns generalizing indeg with
  | nil => simp [processNeighbors]
  | cons nb rest ih =>
    have Hrest := count_update_le nb rest indeg H
    rw [processNeighbors]
    simp only []
    split
    · rename_i hd
      rw [List.nodup_cons]
      refine ⟨?_, ih _ Hrest⟩
      intro hmem
      rw [pn_ready_mem _ _ Hrest] at hmem
      rw [if_pos rfl] at hmem
      omega
    · exact ih _ Hrest

theorem pn_ready_subset (ns : List String) (indeg : String → Nat)
    (v : String) (h : v ∈ (processNeighbors ns indeg).2) : v ∈ ns := by
  induction ns generalizing indeg with
  | nil => simpa [processNeighbors] using h
  | cons nb rest ih =>
    rw [processNeighbors] at h
    simp only [] at h
    split at h
    · rcases List.mem_cons.mp h with h2 | h2
      · exact h2 ▸ List.mem_cons_self nb rest
      · exact List.mem_cons_of_mem nb (ih _ h2)
    · exact List.mem_cons_of_mem nb (ih _ h)

theorem insertSorted_perm (x : String) (l : List String) :
    (insertSorted x l).Perm (x :: l) := by
  induction l with
  | nil => exact List.Perm.refl _
  | cons y ys ih =>
    rw [insertSorted]
    split
    · exact List.Perm.refl _
    · exact (List.Perm.cons y ih).trans (List.Perm.swap x y ys)

theorem sortAsc_perm (l : List String) : (sortAsc l).Perm l := by
  induction l with
  | nil => exact List.Perm.refl _
  | cons x xs ih =>
    rw [sortAsc, List.foldr_cons]
    exact (insertSorted_perm x _).trans (List.Perm.cons x ih)

theorem mem_sortAsc {l : List String} {v : String} :
    v ∈ sortAsc l ↔ v ∈ l :=
  (sortAsc_perm l).mem_iff

theorem nodup_sortAsc {l : List String} (h : l.Nodup) : (sortAsc l).Nodup :=
  (sortAsc_perm l).nodup_iff.mpr h

theorem length_sortAsc (l : List String) : (sortAsc l).length = l.length :=
  (sortAsc_perm l).length_eq

/-- Parallel edges from `u` to `v` (duplicate dependencies count). -/
def edgeCnt (edges : List (String × String)) (u v : String) : Nat :=
  edges.countP (fun e => decide (e.1 = u) && decide (e.2 = v))

theorem cnt_adjOfE (edges : List (String × String)) (u v : String) :
    cnt v (adjOfE edges u) = edgeCnt edges u v := by
  induction edges with
  | nil => rfl
  | cons e rest ih =>
    simp only [adjOfE, edgeCnt] at ih ⊢
    rw [List.filter_cons, List.countP_cons]
    by_cases h1 : e.1 = u <;> by_cases h2 : e.2 = v <;>
      simp [h1, h2, cnt_cons, ih] <;> omega

theorem countP_split (l : List (String × String))
    (p q : String × String → Bool) :
    l.countP p = l.countP (fun a => p a && q a) +
      l.countP (fun a => p a && !q a) := by
  induction l with
  | nil => rfl
  | cons a rest ih =>
    rw [List.countP_cons, List.countP_cons, List.countP_cons]
    by_cases hp : p a <;> by_cases hq : q a <;> simp [hp, hq] <;> omega

theorem edgesInto_pop (edges : List (String × String)) (v current : String)
    (order : List String) (hco : current ∉ order) :
    edgesInto edges v order =
      edgeCnt edges current v + edgesInto edges v (order ++ [current]) := by
  rw [edgesInto, countP_split edges _ (fun e => decide (e.1 = current))]
  congr 1
  · rw [edgeCnt]
    apply List.countP_congr
    intro e _
    simp only [Bool.and_eq_true, decide_eq_true_eq]
    constructor
    · rintro ⟨⟨h2, _⟩, h1⟩
      exact ⟨h1, h2⟩
    · rintro ⟨h1, h2⟩
      exact ⟨⟨h2, h1 ▸ hco⟩, h1⟩
  · rw [edgesInto]
    apply List.countP_congr
    intro e _
    simp only [Bool.and_eq_true, decide_eq_true_eq, Bool.not_eq_true',
      decide_eq_false_iff_not, List.mem_append, List.mem_singleton]
    constructor
    · rintro ⟨⟨h2, h3⟩, h1⟩
      exact ⟨h2, by tauto⟩
    · rintro ⟨h2, h3⟩
      exact ⟨⟨h2, fun hm => h3 (Or.inl hm)⟩, fun he => h3 (Or.inr he)⟩

/-- The loop invariant of Kahn's algorithm: emitted and queued ids are
duplicate-free node ids, queued ids have exhausted their in-degree, the
mutable in-degree of `v` counts edges from not-yet-emitted sources, and
every emitted id was emitted after all its predecessors. -/
structure TopoInv (edges : List (String × String)) (ids : List String)
    (stack : List String) (indeg : String → Nat) (order : List String) :
    Prop where
  nodup : (order ++ stack).Nodup
  subset : ∀ v ∈ order ++ stack, v ∈ ids
  stack_zero : ∀ v ∈ stack, indeg v = 0
  indeg_eq : ∀ v, indeg v = edgesInto edges v order
  prec : ∀ e ∈ edges, e.2 ∈ order →
    ∃ l₁ l₂, order = l₁ ++ e.2 :: l₂ ∧ e.1 ∈ l₁

theorem topoInv_step {edges : List (String × String)} {ids : List String}
    {stack : List String} {indeg : String → Nat} {order : List String}
    {current : String}
    (inv : TopoInv edges ids (current :: stack) indeg order)
    (htargets : ∀ e ∈ edges, e.2 ∈ ids) :
    TopoInv edges ids
      (sortAsc (processNeighbors (adjOfE edges current) indeg).2 ++ stack)
      (processNeighbors (adjOfE edges current) indeg).1
      (order ++ [current]) := by
  have hnodup := inv.nodup
  rw [List.nodup_append] at hnodup
  obtain ⟨hnO, hnCS, hdisj⟩ := hnodup
  have hco : current ∉ order := fun h => hdisj h (List.mem_cons_self _ _)
  have hcur0 : indeg current = 0 := inv.stack_zero current (by simp)
  have H : ∀ v, cnt v (adjOfE edges current) ≤ indeg v := by
    intro v
    rw [cnt_adjOfE, inv.indeg_eq v, edgesInto_pop edges v current order hco]
    omega
  have hmemready : ∀ v, v ∈ (processNeighbors (adjOfE edges current) indeg).2 ↔
      (cnt v (adjOfE edges current) = indeg v ∧ indeg v ≠ 0) :=
    pn_ready_mem _ _ H
  have hfresh_stack : ∀ v ∈ (processNeighbors (adjOfE edges current) indeg).2,
      v ∉ current :: stack := by
    intro v hv hvs
    have h0 := inv.stack_zero v hvs
    exact ((hmemready v).mp hv).2 h0
  have hfresh_order : ∀ v ∈ (processNeighbors (adjOfE edges current) indeg).2,
      v ∉ order := by
    intro v hv hvo
    have hne := ((hmemready v).mp hv).2
    rw [inv.indeg_eq v, edgesInto] at hne
    have hpos : 0 < edges.countP
        (fun e => decide (e.2 = v) && decide (e.1 ∉ order)) := by omega
    rw [List.countP_pos_iff] at hpos
    obtain ⟨e, he, hpe⟩ := hpos
    simp only [Bool.and_eq_true, decide_eq_true_eq] at hpe
    obtain ⟨l₁, l₂, hsplit, hmem⟩ := inv.prec e he (hpe.1 ▸ hvo)
    exact hpe.2 (hsplit ▸ List.mem_append_left _ hmem)
  have hready_ids : ∀ v ∈ (processNeighbors (adjOfE edges current) indeg).2,
      v ∈ ids := by
    intro v hv
    have hadj := pn_ready_subset _ _ _ hv
    rw [adjOfE, List.mem_map] at hadj
    obtain ⟨e, he, hev⟩ := hadj
    rw [List.mem_filter] at he
    exact hev ▸ htargets e he.1
  have hstack_sub : ∀ v ∈ stack, v ∈ current :: stack :=
    fun v hv => List.mem_cons_of_mem _ hv
  refine ⟨?_, ?_, ?_, ?_, ?_⟩
  · -- nodup
    rw [List.nodup_append]
    refine ⟨?_, ?_, ?_⟩
    · rw [List.nodup_append]
      refine ⟨hnO, by simp, ?_⟩
      intro a ha hb
      rw [List.mem_singleton] at hb
      exact hdisj (hb ▸ ha) (List.mem_cons_self _ _)
    · rw [List.nodup_append]
      refine ⟨nodup_sortAsc (pn_ready_nodup _ _ H), ?_, ?_⟩
      · exact (List.nodup_cons.mp hnCS).2
      · intro a ha hb
        exact hfresh_stack a (mem_sortAsc.mp ha) (List.mem_cons_of_mem _ hb)
    · intro a ha hb
      rw [List.mem_append] at ha hb
      rcases ha with ha | ha
      · rcases hb with hb | hb
        · exact hfresh_order a (mem_sortAsc.mp hb) ha
        · exact hdisj ha (List.mem_cons_of_mem _ hb)
      · rw [List.mem_singleton] at ha
        subst ha
        rcases hb with hb | hb
        · exact hfresh_stack a (mem_sortAsc.mp hb) (List.mem_cons_self _ _)
        · exact (List.nodup_cons.mp hnCS).1 hb
  · -- subset
    intro v hv
    rw [List.mem_append, List.mem_append] at hv
    rcases hv with (hv | hv) | hv
    · exact inv.subset v (List.mem_append_left _ hv)
    · rw [List.mem_singleton] at hv
      exact hv ▸ inv.subset current (List.mem_append_right _ (by simp))
    · rw [List.mem_append] at hv
      rcases hv with hv | hv
      · exact hready_ids v (mem_sortAsc.mp hv)
      · exact inv.subset v
          (List.mem_append_right _ (List.mem_cons_of_mem _ hv))
  · -- stack_zero
    intro v hv
    rw [List.mem_append] at hv
    rw [pn_indeg]
    rcases hv with hv | hv
    · have := ((hmemready v).mp (mem_sortAsc.mp hv)).1
      omega
    · have := inv.stack_zero v (List.mem_cons_of_mem _ hv)
      omega
  · -- indeg_eq
    intro v
    rw [pn_indeg, cnt_adjOfE, inv.indeg_eq v,
      edgesInto_pop edges v current order hco]
    omega
  · -- prec
    intro e he hmem
    rw [List.mem_append, List.mem_singleton] at hmem
    rcases hmem with hmem | hmem
    · obtain ⟨l₁, l₂, hsplit, hmem1⟩ := inv.prec e he hmem
      exact ⟨l₁, l₂ ++ [current], by rw [hsplit]; simp, hmem1⟩
    · have h0 : edgesInto edges current order = 0 := by
        rw [← inv.indeg_eq]
        exact hcur0
      rw [edgesInto, List.countP_eq_zero] at h0
      have he2 := h0 e he
      simp only [Bool.and_eq_true, decide_eq_true_eq, not_and] at he2
      have hin : e.1 ∈ order := by
        by_cases hx : e.1 ∈ order
        · exact hx
        · exact absurd (he2 (by rw [hmem])) (by simpa using hx)
      exact ⟨order, [], by rw [hmem], hin⟩

theorem topoLoop_sound (edges : List (String × String)) (ids : List String)
    (htargets : ∀ e ∈ edges, e.2 ∈ ids) :
    ∀ (fuel : Nat) (stack : List String) (indeg : String → Nat)
      (order : List String), TopoInv edges ids stack indeg order →
      (topoLoop (adjOfE edges) fuel stack indeg order).Nodup ∧
      (∀ v ∈ topoLoop (adjOfE edges) fuel stack indeg order, v ∈ ids) ∧
      (∀ e ∈ edges, e.2 ∈ topoLoop (adjOfE edges) fuel stack indeg order →
        ∃ l₁ l₂, topoLoop (adjOfE edges) fuel stack indeg order =
          l₁ ++ e.2 :: l₂ ∧ e.1 ∈ l₁) := by
  intro fuel
  induction fuel with
  | zero =>
    intro stack indeg order inv
    rw [topoLoop]
    have hn := inv.nodup
    rw [List.nodup_append] at hn
    exact ⟨hn.1, fun v hv => inv.subset v (List.mem_append_left _ hv),
      inv.prec⟩
  | succ fuel ih =>
    intro stack indeg order inv
    cases stack with
    | nil =>
      rw [topoLoop]
      have hn := inv.nodup
      rw [List.nodup_append] at hn
      exact ⟨hn.1, fun v hv => inv.subset v (List.mem_append_left _ hv),
        inv.prec⟩
    | cons current stack =>
      rw [topoLoop]
      exact ih _ _ _ (topoInv_step inv htargets)

theorem allEdges_targets (nodes : List SkillNode) :
    ∀ e ∈ allEdges nodes, e.2 ∈ (nodes.map SkillNode.skill_id).dedup := by
  intro e he
  rw [allEdges, List.mem_flatMap] at he
  obtain ⟨n, hn, he2⟩ := he
  rw [List.mem_map] at he2
  obtain ⟨d, _, hde⟩ := he2
  rw [List.mem_dedup, List.mem_map]
  exact ⟨n, hn, by rw [← hde]⟩

theorem topoInv_init (nodes : List SkillNode) :
    TopoInv (allEdges nodes) (nodes.map SkillNode.skill_id).dedup
      ((sortAsc (((nodes.map SkillNode.skill_id).dedup).filter
        (fun v => decide (indeg0 (allEdges nodes) v = 0)))).reverse)
      (indeg0 (allEdges nodes)) [] := by
  refine ⟨?_, ?_, ?_, ?_, ?_⟩
  · rw [List.nil_append, List.nodup_reverse]
    exact nodup_sortAsc ((List.nodup_dedup _).filter _)
  · intro v hv
    rw [List.nil_append, List.mem_reverse, mem_sortAsc, List.mem_filter]
      at hv
    exact hv.1
  · intro v hv
    rw [List.mem_reverse, mem_sortAsc, List.mem_filter] at hv
    simpa using hv.2
  · intro v
    rw [indeg0, edgesInto]
    apply List.countP_congr
    intro e _
    simp
  · intro e _ hmem
    cases hmem

theorem topological_order_ok_elim (nodes : List SkillNode)
    (order : List String)
    (h : SkillGraph.topological_order nodes = .ok order) :
    order = topoLoop (adjOfE (allEdges nodes)) (nodes.length + 1)
      ((sortAsc (((nodes.map SkillNode.skill_id).dedup).filter
        (fun v => decide (indeg0 (allEdges nodes) v = 0)))).reverse)
      (indeg0 (allEdges nodes)) [] ∧
    order.length = nodes.length := by
  rw [SkillGraph.topological_order.eq_def] at h
  simp only [] at h
  split at h
  · rename_i hlen
    cases h
    exact ⟨rfl, hlen⟩
  · cases h

/-- C1: on every skill graph accepted by `validate`, `topological_order`
returns `Ok` with a sequence listing every node's `skill_id` exactly once,
and for every node and every one of its dependencies the dependency's
`source_skill` is emitted strictly earlier than the node's own
`skill_id`. -/
theorem topological_order_correct (nodes : List SkillNode)
    (hval : SkillGraph.validate nodes = .ok ()) :
    ∃ order, SkillGraph.topological_order nodes = .ok order ∧
      (∀ n ∈ nodes, order.count n.skill_id = 1) ∧
      (∀ n ∈ nodes, ∀ d ∈ n.dependencies,
        ∃ l₁ l₂, order = l₁ ++ n.skill_id :: l₂ ∧ d.source_skill ∈ l₁) := by
  rw [SkillGraph.validate] at hval
  rcases hcm : SkillGraph.checkMissing (nodes.map SkillNode.skill_id) nodes
    with e | u
  · rw [hcm] at hval
    cases hval
  · rw [hcm] at hval
    rcases hto : SkillGraph.topological_order nodes with e | order
    · rw [hto] at hval
      cases hval
    · obtain ⟨horder, hlen⟩ := topological_order_ok_elim nodes order hto
      obtain ⟨hnodup, hsubset, hprec⟩ :=
        topoLoop_sound (allEdges nodes) (nodes.map SkillNode.skill_id).dedup
          (allEdges_targets nodes) (nodes.length + 1) _ _ _
          (topoInv_init nodes)
      rw [← horder] at hnodup hsubset hprec
      have hmemorder : ∀ n ∈ nodes, n.skill_id ∈ order := by
        intro n hn
        have hdl : ((nodes.map SkillNode.skill_id).dedup).length ≤
            (nodes.map SkillNode.skill_id).length :=
          (List.dedup_sublist _).length_le
        have hsubF : order.toFinset ⊆
            ((nodes.map SkillNode.skill_id).dedup).toFinset := by
          intro x hx
          rw [List.mem_toFinset] at hx ⊢
          exact hsubset x hx
        have hc1 : order.toFinset.card = order.length :=
          List.toFinset_card_of_nodup hnodup
        have hc2 : ((nodes.map SkillNode.skill_id).dedup).toFinset.card =
            ((nodes.map SkillNode.skill_id).dedup).length :=
          List.toFinset_card_of_nodup (List.nodup_dedup _)
        have hcge : ((nodes.map SkillNode.skill_id).dedup).toFinset.card ≤
            order.toFinset.card := by
          rw [hc1, hc2, hlen]
          simpa using hdl
        have heqF := Finset.eq_of_subset_of_card_le hsubF hcge
        have hmem : n.skill_id ∈
            ((nodes.map SkillNode.skill_id).dedup).toFinset := by
          rw [List.mem_toFinset, List.mem_dedup, List.mem_map]
          exact ⟨n, hn, rfl⟩
        rw [← heqF, List.mem_toFinset] at hmem
        exact hmem
      refine ⟨order, rfl, ?_, ?_⟩
      · intro n hn
        exact List.count_eq_one_of_mem hnodup (hmemorder n hn)
      · intro n hn d hd
        have hedge : (d.source_skill, n.skill_id) ∈ allEdges nodes := by
          rw [allEdges, List.mem_flatMap]
          exact ⟨n, hn, by rw [List.mem_map]; exact ⟨d, hd, rfl⟩⟩
        exact hprec (d.source_skill, n.skill_id) hedge (hmemorder n hn)

/-- The linear pipeline of the repository's `linear_order` test. -/
def linNodes : List SkillNode :=
  [⟨"a", []⟩, ⟨"b", [⟨"a", ["result"]⟩]⟩, ⟨"c", [⟨"b", []⟩]⟩]

/-- Witness for `topological_order_correct` at the linear pipeline
a → b → c. -/
theorem topological_order_correct_witness :
    SkillGraph.validate linNodes = .ok () ∧
    ∃ order, SkillGraph.topological_order linNodes = .ok order ∧
      (∀ n ∈ linNodes, order.count n.skill_id = 1) ∧
      (∀ n ∈ linNodes, ∀ d ∈ n.dependencies,
        ∃ l₁ l₂, order = l₁ ++ n.skill_id :: l₂ ∧ d.source_skill ∈ l₁) :=
  ⟨rfl, topological_order_correct linNodes rfl⟩

/-- C9 (amended): any node list with a repeated `skill_id` makes
`topological_order` return CycleDetected — the emitted order holds each
distinct id at most once while its length is compared against
`nodes.len()` — even when the induced digraph is acyclic; `validate` then
also fails, with CycleDetected when its missing-dependency scan passes
(and MissingDependency otherwise, see
`validate_duplicate_missing_not_cycle`). -/
theorem duplicate_ids_cycle (nodes : List SkillNode)
    (hdup : ¬ (nodes.map SkillNode.skill_id).Nodup) :
    SkillGraph.topological_order nodes = .error .cycleDetected ∧
    (SkillGraph.checkMissing (nodes.map SkillNode.skill_id) nodes =
        .ok () →
      SkillGraph.validate nodes = .error .cycleDetected) ∧
    (∃ e, SkillGraph.validate nodes = .error e) := by
  have htopo : SkillGraph.topological_order nodes = .error .cycleDetected := by
    obtain ⟨hnodup, hsubset, _⟩ :=
      topoLoop_sound (allEdges nodes) (nodes.map SkillNode.skill_id).dedup
        (allEdges_targets nodes) (nodes.length + 1) _ _ _
        (topoInv_init nodes)
    rw [SkillGraph.topological_order.eq_def]
    simp only []
    rw [if_neg]
    intro hlen
    apply hdup
    have hsubF : (topoLoop (adjOfE (allEdges nodes)) (nodes.length + 1)
        ((sortAsc (((nodes.map SkillNode.skill_id).dedup).filter
          (fun v => decide (indeg0 (allEdges nodes) v = 0)))).reverse)
        (indeg0 (allEdges nodes)) []).toFinset ⊆
        ((nodes.map SkillNode.skill_id).dedup).toFinset := by
      intro x hx
      rw [List.mem_toFinset] at hx ⊢
      exact hsubset x hx
    have hc1 := List.toFinset_card_of_nodup hnodup
    have hc2 := List.toFinset_card_of_nodup
      (List.nodup_dedup (nodes.map SkillNode.skill_id))
    have hle := Finset.card_le_card hsubF
    rw [hc1, hc2, hlen] at hle
    have hdl : ((nodes.map SkillNode.skill_id).dedup).length ≤
        (nodes.map SkillNode.skill_id).length :=
      (List.dedup_sublist _).length_le
    have hlen2 : ((nodes.map SkillNode.skill_id).dedup).length =
        (nodes.map SkillNode.skill_id).length := by
      rw [List.length_map] at *
      omega
    have heq := (List.dedup_sublist
      (nodes.map SkillNode.skill_id)).eq_of_length hlen2
    rw [← heq]
    exact List.nodup_dedup _
  refine ⟨htopo, ?_, ?_⟩
  · intro hcm
    rw [SkillGraph.validate, hcm, htopo]
  · rcases hcm : SkillGraph.checkMissing (nodes.map SkillNode.skill_id)
      nodes with e | u
    · exact ⟨e, by rw [SkillGraph.validate, hcm]⟩
    · cases u
      exact ⟨.cycleDetected, by rw [SkillGraph.validate, hcm, htopo]⟩

/-- Witness for `duplicate_ids_cycle` at two nodes both named "x". -/
theorem duplicate_ids_cycle_witness :
    SkillGraph.topological_order [⟨"x", []⟩, ⟨"x", []⟩] =
      .error .cycleDetected ∧
    SkillGraph.validate [⟨"x", []⟩, ⟨"x", []⟩] = .error .cycleDetected :=
  ⟨(duplicate_ids_cycle [⟨"x", []⟩, ⟨"x", []⟩] (by decide)).1,
    (duplicate_ids_cycle [⟨"x", []⟩, ⟨"x", []⟩] (by decide)).2.1 rfl⟩

/-- C9 counterexample for the `validate` parenthetical: the node list
`[x, x-depending-on-y]` repeats "x", its induced digraph has the single
edge y → x and is acyclic, and `topological_order` duly reports
CycleDetected — but `validate` reports MissingDependency{x, y}, not
CycleDetected. -/
theorem validate_duplicate_missing_not_cycle :
    SkillGraph.topological_order [⟨"x", []⟩, ⟨"x", [⟨"y", []⟩]⟩] =
      .error .cycleDetected ∧
    SkillGraph.validate [⟨"x", []⟩, ⟨"x", [⟨"y", []⟩]⟩] =
      .error (.missingDependency "x" "y") ∧
    GraphError.missingDependency "x" "y" ≠ GraphError.cycleDetected :=
  ⟨rfl, rfl, by decide⟩

theorem allEdges_empty (nodes : List SkillNode)
    (h : ∀ n ∈ nodes, n.dependencies = []) : allEdges nodes = [] := by
  induction nodes with
  | nil => rfl
  | cons n rest ih =>
    rw [allEdges, List.flatMap_cons, h n (List.mem_cons_self _ _),
      List.map_nil, List.nil_append]
    exact ih (fun m hm => h m (List.mem_cons_of_mem _ hm))

theorem topoLoop_no_edges (adj : String → List String)
    (hadj : ∀ u, adj u = []) :
    ∀ (fuel : Nat) (stack : List String) (indeg : String → Nat)
      (order : List String), stack.length ≤ fuel →
      topoLoop adj fuel stack indeg order = order ++ stack := by
  intro fuel
  induction fuel with
  | zero =>
    intro stack indeg order h
    have : stack = [] := List.eq_nil_of_length_eq_zero (by omega)
    subst this
    rw [topoLoop, List.append_nil]
  | succ fuel ih =>
    intro stack indeg order h
    cases stack with
    | nil => rw [topoLoop, List.append_nil]
    | cons current stack =>
      rw [topoLoop, hadj current]
      simp only [processNeighbors, sortAsc, List.foldr_nil, List.nil_append]
      rw [ih stack _ (order ++ [current]) (by simp at h; omega)]
      simp

/-- C2 (amended): the initial ready queue is sorted ascending but popped
from the back, so simultaneously ready root nodes are emitted in
DESCENDING lexicographic order; in particular, for every graph with
distinct ids whose nodes all have empty dependency lists, the returned
order is the descending lexicographic sort of the `skill_id`s.  (The
frozen claim's ascending order is refuted by
`topological_order_two_roots_descending`; only nodes becoming ready during
a single neighbor pass are placed on top of the stack in ascending
order.) -/
theorem topological_order_all_empty (nodes : List SkillNode)
    (hdep : ∀ n ∈ nodes, n.dependencies = [])
    (hnodup : (nodes.map SkillNode.skill_id).Nodup) :
    SkillGraph.topological_order nodes =
      .ok ((sortAsc (nodes.map SkillNode.skill_id)).reverse) := by
  have hedges : allEdges nodes = [] := allEdges_empty nodes hdep
  have hdedup : (nodes.map SkillNode.skill_id).dedup =
      nodes.map SkillNode.skill_id := List.dedup_eq_self.mpr hnodup
  rw [SkillGraph.topological_order.eq_def]
  simp only [hedges, hdedup]
  have hfil : (nodes.map SkillNode.skill_id).filter
      (fun v => decide (indeg0 [] v = 0)) = nodes.map SkillNode.skill_id :=
    List.filter_eq_self.mpr (fun a _ => by simp [indeg0])
  rw [hfil]
  have hlen : ((sortAsc (nodes.map SkillNode.skill_id)).reverse).length ≤
      nodes.length + 1 := by
    rw [List.length_reverse, length_sortAsc, List.length_map]
    omega
  rw [topoLoop_no_edges (adjOfE []) (fun u => rfl) _ _ _ _ hlen,
    List.nil_append]
  rw [if_pos]
  rw [List.length_reverse, length_sortAsc, List.length_map]

/-- C2 counterexample: two dependency-free nodes "a" and "b" are both
ready at the start, yet the order emitted is `["b", "a"]` — the
lexicographically smallest ready node is not popped first, and the result
is not the ascending sort of the ids. -/
theorem topological_order_two_roots_descending :
    SkillGraph.topological_order [⟨"a", []⟩, ⟨"b", []⟩] = .ok ["b", "a"] ∧
    (["b", "a"] : List String) ≠ ["a", "b"] :=
  ⟨rfl, by decide⟩

/-- Witness for `topological_order_all_empty` at the same two root
nodes. -/
theorem topological_order_all_empty_witness :
    SkillGraph.topological_order [⟨"a", []⟩, ⟨"b", []⟩] =
      .ok ((sortAsc ["a", "b"]).reverse) :=
  topological_order_all_empty [⟨"a", []⟩, ⟨"b", []⟩]
    (by
      intro n hn
      rcases List.mem_cons.mp hn with h | h
      · rw [h]
      · rw [List.mem_singleton] at h
        rw [h])
    (by decide)

/-- Witness for `strip_then_validate_iff`: a schema requiring "t" accepts
the object `{"t": null}` after stripping. -/
theorem strip_then_validate_iff_witness :
    JsonSchema.validate (Json.obj [("required", Json.arr [Json.str "t"])])
      (JsonSchema.strip_unknown_fields
        (Json.obj [("required", Json.arr [Json.str "t"])])
        (Json.obj [("t", Json.null)])) = .ok () :=
  (strip_then_validate_iff (Json.obj [("required", Json.arr [Json.str "t"])])
    (Json.obj [("t", Json.null)])).mpr
    (Or.inr ⟨⟨[("t", Json.null)], rfl⟩, by
      intro f hf
      have h : requiredStrings
          (Json.obj [("required", Json.arr [Json.str "t"])]) = ["t"] := rfl
      rw [h, List.mem_singleton] at hf
      subst hf
      rfl⟩)
